import Mathlib

/-!
Verification of the GameBoymini 2+4 Texas Hold'em rules engine.

Shallow embedding of `src/Poker/Sheet/card.py`, `src/Poker/Sheet/deck.py`,
`src/Poker/holdem/texas_holdem_evaluator.py`, `src/4CardTexas/Game/player.py`
and `src/4CardTexas/Game/texas_holdem.py`. Python integers are modelled as
`Int` where subtraction occurs (chips, bets, pot) and as `Nat` for card ranks
and evaluator scores (no subtraction there). Python's stable
`sorted(..., reverse=True)` is modelled by a stable descending insertion sort.
-/

namespace GameBoymini

/-- Suits of a standard deck, as in `card.py` (`Suit`), in iteration order
HEARTS, DIAMONDS, CLUBS, SPADES. -/
inductive Suit where
  | hearts
  | diamonds
  | clubs
  | spades
deriving DecidableEq, Repr

/-- A playing card: suit plus numeric rank 2..14, as in `card.py` (`Card`,
with the `Rank` enum flattened to its integer `value`). -/
structure Card where
  suit : Suit
  rank : Nat
deriving DecidableEq, Repr

/-- Hand categories from `texas_holdem_evaluator.py` (`HandType`). -/
inductive HandType where
  | HIGH_CARD
  | PAIR
  | TWO_PAIR
  | THREE_KIND
  | STRAIGHT
  | FLUSH
  | FULL_HOUSE
  | FOUR_KIND
  | STRAIGHT_FLUSH
  | ROYAL_FLUSH
deriving DecidableEq, Repr

/-- Numeric value of a `HandType`, as in the Python enum (1..10). -/
def HandType.value : HandType → Nat
  | .HIGH_CARD => 1
  | .PAIR => 2
  | .TWO_PAIR => 3
  | .THREE_KIND => 4
  | .STRAIGHT => 5
  | .FLUSH => 6
  | .FULL_HOUSE => 7
  | .FOUR_KIND => 8
  | .STRAIGHT_FLUSH => 9
  | .ROYAL_FLUSH => 10

/-- Result record of `texas_holdem_evaluator.py` (`HandEvaluation`). -/
structure HandEvaluation where
  hand_type : HandType
  cards : List Card
  score : Nat
  kickers : List Nat
deriving DecidableEq, Repr

/-- Stable descending insertion (an element goes before the equals already in
the sorted rest, which come later in the original list). Together with
`sortDesc` this models Python's stable `sorted(l, key=key, reverse=True)`. -/
def insDesc (key : α → Nat) (x : α) : List α → List α
  | [] => [x]
  | y :: ys => if key y ≤ key x then x :: y :: ys else y :: insDesc key x ys

/-- Stable descending sort by `key`. -/
def sortDesc (key : α → Nat) (l : List α) : List α :=
  l.foldr (insDesc key) []

/-- Ascending insertion for `Nat` lists (Python `sorted`). -/
def insAsc (x : Nat) : List Nat → List Nat
  | [] => [x]
  | y :: ys => if x ≤ y then x :: y :: ys else y :: insAsc x ys

/-- Ascending sort for `Nat` lists (Python `sorted`). -/
def sortAsc (l : List Nat) : List Nat :=
  l.foldr insAsc []

/-- First occurrence of each element, in order of first appearance: models
iterating over the keys of a Python `Counter` (insertion-ordered dict). -/
def firstUniq : List Nat → List Nat
  | [] => []
  | x :: xs => x :: (firstUniq xs).filter (fun y => y ≠ x)

/-- Rank values of a list of cards (`[card.rank.value for card in cards]`). -/
def ranksOf (cards : List Card) : List Nat :=
  cards.map (·.rank)

/-- Python `Counter(card.rank.value for card in cards).items()`: pairs
(rank, multiplicity) in first-occurrence order. -/
def rankCounts (cards : List Card) : List (Nat × Nat) :=
  (firstUniq (ranksOf cards)).map (fun r => (r, (ranksOf cards).count r))

/-- `_is_flush`: `len(set(suits)) == 1`. -/
def is_flush (cards : List Card) : Bool :=
  match cards with
  | [] => false
  | c :: cs => cs.all (fun d => d.suit == c.suit)

/-- Consecutiveness scan of `_is_straight_values` (the `for`/`else` loop). -/
def isConsecutive : List Nat → Bool
  | a :: b :: rest => (b == a + 1) && isConsecutive (b :: rest)
  | _ => true

/-- `_is_straight_values`: sorted unique ranks are 5 consecutive values, or
the ace-low special case [2,3,4,5,14]. -/
def is_straight_values (ranks : List Nat) : Bool :=
  let s := sortAsc (firstUniq ranks)
  (s.length == 5 && isConsecutive s) || s == [2, 3, 4, 5, 14]

/-- `_is_royal_flush`: flush whose ranks, sorted descending, are A K Q J 10. -/
def is_royal_flush (cards : List Card) : Bool :=
  is_flush cards && (sortDesc id (ranksOf cards) == [14, 13, 12, 11, 10])

/-- Python `max(cards, key=lambda x: x.rank.value).rank.value`. -/
def maxRank (cards : List Card) : Nat :=
  (ranksOf cards).foldl max 0

/-- `_check_straight_flush`. The kicker list records the actual highest rank
(the ace, in the ace-low case) while the score uses 5 as the high card. -/
def check_straight_flush (cards : List Card) : Option HandEvaluation :=
  if is_flush cards && is_straight_values (ranksOf cards) then
    let high := maxRank cards
    let score := if sortAsc (ranksOf cards) == [2, 3, 4, 5, 14]
      then 500 + 5 else 500 + high
    some ⟨.STRAIGHT_FLUSH, cards, score, [high]⟩
  else none

/-- `_check_four_of_a_kind`. -/
def check_four_of_a_kind (cards : List Card) : Option HandEvaluation :=
  let counts := rankCounts cards
  match counts.find? (fun rc => rc.2 == 4) with
  | some rc =>
    let kicker := ((counts.map (·.1)).filter (fun x => x != rc.1)).headD 0
    some ⟨.FOUR_KIND, cards, 400 + rc.1, [rc.1, kicker]⟩
  | none => none

/-- One step of the `_check_full_house` loop: remember the last rank seen
with count 3 and the last with count 2. -/
def fhStep (acc : Option Nat × Option Nat) (rc : Nat × Nat) : Option Nat × Option Nat :=
  if rc.2 == 3 then (some rc.1, acc.2)
  else if rc.2 == 2 then (acc.1, some rc.1)
  else acc

/-- `_check_full_house`: the loop keeps the last rank seen with count 3 and
the last with count 2; Python truthiness also demands both ranks nonzero. -/
def check_full_house (cards : List Card) : Option HandEvaluation :=
  let counts := rankCounts cards
  let tp := counts.foldl fhStep ((none, none) : Option Nat × Option Nat)
  match tp with
  | (some t, some p) =>
    if t != 0 && p != 0 then some ⟨.FULL_HOUSE, cards, 300 + t, [t, p]⟩
    else none
  | _ => none

/-- `_check_flush`. -/
def check_flush (cards : List Card) : Option HandEvaluation :=
  if is_flush cards then
    let kickers := sortDesc id (ranksOf cards)
    some ⟨.FLUSH, cards, 200 + kickers.headD 0, kickers⟩
  else none

/-- `_check_straight` (ace-low scored as 5-high). -/
def check_straight (cards : List Card) : Option HandEvaluation :=
  let ranks := ranksOf cards
  if is_straight_values ranks then
    if sortAsc ranks == [2, 3, 4, 5, 14] then
      some ⟨.STRAIGHT, cards, 100 + 5, [5]⟩
    else
      some ⟨.STRAIGHT, cards, 100 + maxRank cards, [maxRank cards]⟩
  else none

/-- `_check_three_of_a_kind`. -/
def check_three_of_a_kind (cards : List Card) : Option HandEvaluation :=
  let counts := rankCounts cards
  match counts.find? (fun rc => rc.2 == 3) with
  | some rc =>
    let kickers := sortDesc id ((counts.map (·.1)).filter (fun x => x != rc.1))
    some ⟨.THREE_KIND, cards, 90 + rc.1, rc.1 :: kickers⟩
  | none => none

/-- `_check_two_pair`. -/
def check_two_pair (cards : List Card) : Option HandEvaluation :=
  let counts := rankCounts cards
  let pairs := (counts.filter (fun rc => rc.2 == 2)).map (·.1)
  if pairs.length == 2 then
    let ps := sortDesc id pairs
    let kicker := ((counts.filter (fun rc => rc.2 == 1)).map (·.1)).headD 0
    some ⟨.TWO_PAIR, cards, 80 + ps.headD 0, ps ++ [kicker]⟩
  else none

/-- `_check_pair`. -/
def check_pair (cards : List Card) : Option HandEvaluation :=
  let counts := rankCounts cards
  match counts.find? (fun rc => rc.2 == 2) with
  | some rc =>
    let kickers := sortDesc id ((counts.map (·.1)).filter (fun x => x != rc.1))
    some ⟨.PAIR, cards, 70 + rc.1, rc.1 :: kickers⟩
  | none => none

/-- `_check_high_card`. -/
def check_high_card (cards : List Card) : HandEvaluation :=
  let kickers := sortDesc id (ranksOf cards)
  ⟨.HIGH_CARD, cards, 60 + kickers.headD 0, kickers⟩

/-- Category cascade of `_evaluate_5_cards` on the already-sorted cards:
test categories from strongest to weakest, returning on the first match. -/
def classify5 (s : List Card) : HandEvaluation :=
  if is_royal_flush s then ⟨.ROYAL_FLUSH, s, 10000, []⟩ else
  match check_straight_flush s with
  | some e => e
  | none =>
  match check_four_of_a_kind s with
  | some e => e
  | none =>
  match check_full_house s with
  | some e => e
  | none =>
  match check_flush s with
  | some e => e
  | none =>
  match check_straight s with
  | some e => e
  | none =>
  match check_three_of_a_kind s with
  | some e => e
  | none =>
  match check_two_pair s with
  | some e => e
  | none =>
  match check_pair s with
  | some e => e
  | none => check_high_card s

/-- `_evaluate_5_cards`: sort descending by rank (stably, as Python's
`sorted(..., reverse=True)`), then classify. (The Python length-5 guard
raises `ValueError` for other inputs; claims about this function are stated
for 5-card inputs.) -/
def evaluate_5_cards (cards : List Card) : HandEvaluation :=
  classify5 (sortDesc (fun c => c.rank) cards)

/-- Kicker contribution of `_calculate_total_score`:
sum of `kicker * 16 ^ position-from-the-right`. -/
def kicker_raw : List Nat → Nat
  | [] => 0
  | k :: ks => k * 16 ^ ks.length + kicker_raw ks

/-- `_calculate_total_score`: category band + intra-category score + capped
kicker contribution. -/
def calculate_total_score (e : HandEvaluation) : Nat :=
  e.hand_type.value * 1000000 + e.score * 1000 + min (kicker_raw e.kickers) 99999

/-- `itertools.combinations`, in the same (index-lexicographic) order. -/
def combinations : Nat → List α → List (List α)
  | 0, _ => [[]]
  | _ + 1, [] => []
  | n + 1, x :: xs => (combinations n xs).map (fun c => x :: c) ++ combinations (n + 1) xs

/-- One step of the best-subset search of `evaluate_6_cards`: score the next
5-card subset and keep it only when its total score is strictly greater. -/
def pickStep (acc : Option (HandEvaluation × Nat)) (five : List Card) :
    Option (HandEvaluation × Nat) :=
  let e := evaluate_5_cards five
  let t := calculate_total_score e
  match acc with
  | none => some (e, t)
  | some bet => if bet.2 < t then some (e, t) else some bet

/-- `evaluate_6_cards`: enumerate all 5-card subsets of hole + community and
keep the one with the strictly greatest total score (first wins on ties).
`none` models the `ValueError` branches for wrong card counts. -/
def evaluate_6_cards (hole community : List Card) : Option HandEvaluation :=
  if hole.length = 2 ∧ community.length = 4 then
    let all_cards := hole ++ community
    ((combinations 5 all_cards).foldl pickStep none).map (·.1)
  else none

/-- `game_types.py` `GamePhase`. -/
inductive GamePhase where
  | WAITING
  | PREFLOP
  | FLOP
  | TURN
  | RIVER
  | SHOWDOWN
  | ENDED
deriving DecidableEq, Repr

/-- `game_types.py` `PlayerAction`. -/
inductive PlayerAction where
  | FOLD
  | CHECK
  | CALL
  | RAISE
  | ALL_IN
deriving DecidableEq, Repr

/-- `game_types.py` `PlayerStatus`. -/
inductive PlayerStatus where
  | ACTIVE
  | FOLDED
  | ALL_IN
  | OUT
deriving DecidableEq, Repr

/-- Per-seat state of `player.py` (`Player`); fields not read by the
operations under verification (name, position, is_human) are omitted.
Chip and bet amounts are `Int`, like Python integers. -/
structure Player where
  player_id : Nat
  chips : Int
  hole_cards : List Card
  current_bet : Int
  total_bet : Int
  status : PlayerStatus
  last_action : Option PlayerAction
deriving DecidableEq, Repr

/-- Placeholder player used only for out-of-range list indexing, where the
Python source would raise `IndexError`. -/
def dummyPlayer : Player :=
  ⟨0, 0, [], 0, 0, .OUT, none⟩

/-- `Player.place_bet`: move `amount` from chips into the round and hand
bets; fail (unchanged) if `amount` exceeds the chips. -/
def Player.place_bet (p : Player) (amount : Int) : Bool × Player :=
  if p.chips < amount then (false, p)
  else
    let chips := p.chips - amount
    (true,
      { p with
        chips := chips
        current_bet := p.current_bet + amount
        total_bet := p.total_bet + amount
        status := if chips = 0 then .ALL_IN else p.status })

/-- `Player.call`: clamp the requested amount to the stack; a clamped call is
recorded as ALL_IN, a full call as CALL. -/
def Player.call (p : Player) (call_amount : Int) : Bool × Player :=
  let actual := min call_amount p.chips
  let r := p.place_bet actual
  if r.1 then
    (true,
      { r.2 with
        last_action := some (if actual < call_amount then .ALL_IN else .CALL) })
  else (false, p)

/-- `Player.raise_bet`: bet up to the target total `raise_to`; fail if the
implied delta is nonpositive or exceeds the stack. -/
def Player.raise_bet (p : Player) (raise_to : Int) : Bool × Player :=
  let raise_amount := raise_to - p.current_bet
  if raise_amount ≤ 0 then (false, p)
  else
    let r := p.place_bet raise_amount
    if r.1 then
      (true,
        { r.2 with
          last_action := some (if r.2.chips = 0 then .ALL_IN else .RAISE) })
    else (false, p)

/-- `Player.check`: succeeds only when the player's own round bet is 0 or the
player is already all-in. -/
def Player.check (p : Player) : Bool × Player :=
  if p.current_bet = 0 ∨ p.status = .ALL_IN then
    (true, { p with last_action := some .CHECK })
  else (false, p)

/-- `Player.fold`. -/
def Player.fold (p : Player) : Player :=
  { p with status := .FOLDED, last_action := some .FOLD }

/-- `Player.all_in`: wager the whole stack, returning the wagered amount. -/
def Player.all_in (p : Player) : Int × Player :=
  let amt := p.chips
  if 0 < amt then
    (amt, { (p.place_bet amt).2 with last_action := some .ALL_IN })
  else (amt, p)

/-- `Player.can_act`: ACTIVE with chips remaining. -/
def Player.can_act (p : Player) : Bool :=
  decide (p.status = .ACTIVE) && decide (0 < p.chips)

/-- `Player.get_available_actions`: the legal-action query. -/
def Player.get_available_actions (p : Player) (current_bet min_raise : Int) :
    List PlayerAction :=
  if ¬ p.can_act then []
  else
    let call_amount := current_bet - p.current_bet
    (if p.status ≠ PlayerStatus.ALL_IN then [PlayerAction.FOLD] else [])
    ++ (if call_amount = 0 then [PlayerAction.CHECK]
        else if call_amount ≤ p.chips then [PlayerAction.CALL] else [])
    ++ (if current_bet + min_raise ≤ p.chips + p.current_bet
        then [PlayerAction.RAISE] else [])
    ++ (if 0 < p.chips then [PlayerAction.ALL_IN] else [])

/-- Replace the element at one position, if in range. -/
def modifyIdx (i : Nat) (f : α → α) : List α → List α
  | [] => []
  | x :: xs =>
    match i with
    | 0 => f x :: xs
    | n + 1 => x :: modifyIdx n f xs

/-- Game state of `texas_holdem.py` (`TexasHoldemGame`); the presentation
fields (names, human flags) are omitted. -/
structure GameState where
  players : List Player
  community_cards : List Card
  pot : Int
  current_bet : Int
  min_raise : Int
  phase : GamePhase
  dealer_position : Nat
  current_player : Nat
  betting_round_complete : Bool
  hand_number : Nat
deriving DecidableEq, Repr

/-- Key by which `_showdown` sorts and compares evaluated hands. -/
def handScore (x : Nat × HandEvaluation) : Nat :=
  calculate_total_score x.2

/-- Chip awards of `_showdown`: each winner (with its enumeration index `i`)
gains `pot_per` plus one more chip when `i < remainder`. Winners are
addressed by their seat index in the players list, mirroring Python's
mutation of the shared `Player` objects. -/
def applyAwards (pot_per remainder : Int) (winners : List (Nat × HandEvaluation))
    (ps : List Player) : List Player :=
  winners.enum.foldl
    (fun acc iw =>
      modifyIdx iw.2.1
        (fun p =>
          { p with
            chips := p.chips + pot_per + (if (iw.1 : Int) < remainder then 1 else 0) })
        acc)
    ps

/-- The `active_players` of `_showdown`: non-folded, non-out players paired
with their seat indices. -/
def showdownActive (g : GameState) : List (Nat × Player) :=
  g.players.enum.filter
    (fun ip => decide (ip.2.status ≠ .FOLDED) && decide (ip.2.status ≠ .OUT))

/-- The `player_hands` of `_showdown`: evaluated hands of the active players
with 2 hole cards while at least 4 community cards are out, keyed by seat. -/
def showdownHands (g : GameState) : List (Nat × HandEvaluation) :=
  (showdownActive g).filterMap
    (fun ip =>
      if 4 ≤ g.community_cards.length ∧ ip.2.hole_cards.length = 2 then
        (evaluate_6_cards ip.2.hole_cards g.community_cards).map (fun e => (ip.1, e))
      else none)

/-- `TexasHoldemGame._showdown`. With exactly one active player, it takes
the whole pot; otherwise hands are sorted by total score descending (stably,
as Python's sort), and the leading tied run splits the pot with floor
division, the remainder going one chip each to the earliest winners. The pot
is then zeroed and the phase set to ENDED. -/
def showdown (g : GameState) : GameState :=
  match showdownActive g with
  | [ip] =>
    { g with
      players := modifyIdx ip.1 (fun p => { p with chips := p.chips + g.pot }) g.players
      pot := 0
      phase := .ENDED }
  | _ =>
    match sortDesc handScore (showdownHands g) with
    | [] => { g with pot := 0, phase := .ENDED }
    | h :: rest =>
      let best := handScore h
      let winners := h :: rest.takeWhile (fun x => handScore x == best)
      let pot_per := g.pot.fdiv (winners.length : Int)
      let remainder := g.pot.fmod (winners.length : Int)
      { g with
        players := applyAwards pot_per remainder winners g.players
        pot := 0
        phase := .ENDED }

/-- Position of `j` in a list of seat indices (first match), as used to
describe the remainder distribution of a split pot. -/
def idxOf? (j : Nat) : List Nat → Option Nat
  | [] => none
  | x :: xs => if x = j then some 0 else (idxOf? j xs).map (· + 1)

/-- The maximum evaluated total score among the showdown hands. -/
def showdownBest (g : GameState) : Nat :=
  ((showdownHands g).map handScore).foldl max 0

/-- Seat indices of the players tied at the maximum evaluated score, in
seating order. -/
def showdownWinners (g : GameState) : List Nat :=
  ((showdownHands g).filter (fun x => handScore x == showdownBest g)).map (·.1)

/-- The number of chips the split-pot rule awards seat `j`: winners receive
`pot fdiv winnerCount`, and the first `pot fmod winnerCount` winners in
seating order one chip more; everyone else receives nothing. -/
def splitAward (g : GameState) (j : Nat) : Int :=
  match idxOf? j (showdownWinners g) with
  | none => 0
  | some i =>
    g.pot.fdiv ((showdownWinners g).length : Int)
      + (if (i : Int) < g.pot.fmod ((showdownWinners g).length : Int) then 1 else 0)

/-- Turn-advance loop of `_move_to_next_player`: step to the next seat until
either a seat that can act is found or the pointer returns to the start.
The fuel (number of players) bounds the loop exactly as the cyclic walk
does in Python. -/
def findNextAux (ps : List Player) (start : Nat) (cur : Nat) : Nat → Nat
  | 0 => cur
  | fuel + 1 =>
    let nxt := (cur + 1) % ps.length
    if nxt = start then nxt
    else if (ps.getD nxt dummyPlayer).can_act then nxt
    else findNextAux ps start nxt fuel

/-- `TexasHoldemGame._move_to_next_player`. -/
def move_to_next_player (g : GameState) : GameState :=
  { g with
    current_player := findNextAux g.players g.current_player g.current_player g.players.length }

/-- `TexasHoldemGame._check_betting_round_complete`, including the immediate
showdown when at most one non-folded player remains. -/
def check_betting_round_complete (g : GameState) : GameState :=
  let active := g.players.filter (fun p => decide (p.status = PlayerStatus.ACTIVE))
  let all_in := g.players.filter (fun p => decide (p.status = PlayerStatus.ALL_IN))
  let non_folded := active ++ all_in
  if non_folded.length ≤ 1 then
    showdown { g with betting_round_complete := true, phase := .SHOWDOWN }
  else
    let can_act_players := active.filter (fun p => p.can_act)
    if can_act_players.isEmpty then { g with betting_round_complete := true }
    else
      let non_all_in_active := active.filter (fun p => decide (p.status ≠ PlayerStatus.ALL_IN))
      if non_all_in_active.length ≤ 1 then { g with betting_round_complete := true }
      else if non_all_in_active.all
          (fun p => decide (p.current_bet = g.current_bet) && decide (p.last_action ≠ none)) then
        { g with betting_round_complete := true }
      else g

/-- `TexasHoldemGame.process_player_action`. Failure always returns the state
unchanged; on success the turn advances and round completion is re-checked
(possibly running the showdown). -/
def process_player_action (g : GameState) (action : PlayerAction) (amount : Int) :
    Bool × GameState :=
  if g.betting_round_complete then (false, g)
  else
    let player := g.players.getD g.current_player dummyPlayer
    if ¬ player.can_act then (false, g)
    else
      let res : Bool × GameState :=
        match action with
        | .FOLD =>
          (true, { g with players := g.players.set g.current_player player.fold })
        | .CHECK =>
          if player.current_bet = g.current_bet then
            let r := player.check
            if r.1 then
              (true, { g with players := g.players.set g.current_player r.2 })
            else (false, g)
          else (false, g)
        | .CALL =>
          let call_amount := g.current_bet - player.current_bet
          if 0 < call_amount then
            let r := player.call call_amount
            if r.1 then
              (true,
                { g with
                  players := g.players.set g.current_player r.2
                  pot := g.pot + min call_amount (r.2.chips + call_amount) })
            else (false, g)
          else (false, g)
        | .RAISE =>
          if g.current_bet < amount then
            let old_bet := player.current_bet
            let r := player.raise_bet amount
            if r.1 then
              let bet_increase := r.2.current_bet - old_bet
              let new_current_bet := amount
              (true,
                { g with
                  players := g.players.set g.current_player r.2
                  pot := g.pot + bet_increase
                  current_bet := new_current_bet
                  min_raise := max g.min_raise (amount - (new_current_bet - bet_increase)) })
            else (false, g)
          else (false, g)
        | .ALL_IN =>
          let r := player.all_in
          if 0 < r.1 then
            (true,
              { g with
                players := g.players.set g.current_player r.2
                pot := g.pot + r.1
                current_bet :=
                  if g.current_bet < r.2.current_bet then r.2.current_bet else g.current_bet })
          else (false, g)
      if res.1 then (true, check_betting_round_complete (move_to_next_player res.2))
      else (false, res.2)

/-- `TexasHoldemGame.eliminate_players`, at the level of the players list:
returns the updated list and the players just marked OUT, in seat order. -/
def eliminate_players : List Player → List Player × List Player
  | [] => ([], [])
  | p :: ps =>
    let r := eliminate_players ps
    if p.chips ≤ 0 ∧ p.status ≠ PlayerStatus.OUT then
      ({ p with status := .OUT } :: r.1, { p with status := .OUT } :: r.2)
    else (p :: r.1, r.2)

/-- The full ordered 52-card deck built by `Deck._create_deck` (suits in enum
order, ranks 2..14 within each suit). -/
def full_deck : List Card :=
  [Suit.hearts, Suit.diamonds, Suit.clubs, Suit.spades].flatMap
    (fun s => (List.range 13).map (fun i => Card.mk s (i + 2)))

/-- `Deck.deal_card`: pop from the top (the Python list's end). -/
def deal_card (deck : List Card) : Option (Card × List Card) :=
  match deck.getLast? with
  | none => none
  | some c => some (c, deck.dropLast)

/-- The dealing loop of `Deck.deal_cards`: pop up to `n` cards. -/
def popMany : Nat → List Card → List Card × List Card
  | 0, d => ([], d)
  | n + 1, d =>
    match deal_card d with
    | none => ([], d)
    | some cd =>
      let r := popMany n cd.2
      (cd.1 :: r.1, r.2)

/-- `Deck.deal_cards`: error (the `ValueError`) when more cards are requested
than remain, else the dealt cards and the remaining deck. -/
def deal_cards (deck : List Card) (count : Nat) : Except Unit (List Card × List Card) :=
  if deck.length < count then .error ()
  else .ok (popMany count deck)

/-- `DeckManager.get_cards`: try to deal; on the insufficient-cards error,
rebuild a full shuffled deck and retry once (a second failure propagates).
The shuffle is abstracted as a function `shuf` on the full deck. -/
def manager_get_cards (shuf : List Card → List Card) (deck : List Card) (count : Nat) :
    Except Unit (List Card × List Card) :=
  match deal_cards deck count with
  | .ok r => .ok r
  | .error _ => deal_cards (shuf full_deck) count

/-- Sum of all chip balances of a game state (the conserved quantity of the
chip-conservation invariant, together with the pot). -/
def chipSum (g : GameState) : Int :=
  (g.players.map (·.chips)).sum

/-- Small blind seat of a concrete 2-player pre-flop position: posted 10 of
the 1000 starting stack. -/
def pSB : Player :=
  ⟨0, 990, [], 10, 10, .ACTIVE, none⟩

/-- Big blind seat of the same position: posted 20. -/
def pBB : Player :=
  ⟨1, 980, [], 20, 20, .ACTIVE, none⟩

/-- Concrete 2-player pre-flop state right after the blinds, small blind (seat
0) to act: pot 30, table bet 20, minimum raise 20. -/
def gPreflop : GameState :=
  ⟨[pSB, pBB], [], 30, 20, 20, .PREFLOP, 0, 0, false, 1⟩

/-- Seat 0 after completing the call to 20. -/
def pCaller : Player :=
  ⟨0, 980, [], 20, 20, .ACTIVE, some .CALL⟩

/-- Concrete state where the big blind has the option: seat 0 called to 20,
big blind's round bet already equals the table bet, big blind to act. -/
def gBBOption : GameState :=
  ⟨[pCaller, pBB], [], 40, 20, 20, .PREFLOP, 0, 1, false, 1⟩

/-- Seat 0 of a later hand (stack 1970 before blinds): posted the small blind
10 and raised to 50. -/
def pRaiser : Player :=
  ⟨0, 1920, [], 50, 50, .ACTIVE, some .RAISE⟩

/-- Seat 1 of that hand (stack 30 before blinds): posted the big blind 20,
10 chips behind, now facing the raise to 50. -/
def pShortStack : Player :=
  ⟨1, 10, [], 20, 20, .ACTIVE, none⟩

/-- Concrete 2-player state reachable across hands of a 2-player game with
1000-chip starting stacks (total 2000): pot 70, table bet 50, short stack to
act facing a call of 30 with only 10 chips. -/
def gShortCall : GameState :=
  ⟨[pRaiser, pShortStack], [], 70, 50, 40, .PREFLOP, 0, 1, false, 1⟩

/-- Seat 0 holding A♦9♣ against the board 2♣3♦4♥5♠ (ace-low straight). -/
def pTied0 : Player :=
  ⟨0, 1000, [⟨.diamonds, 14⟩, ⟨.clubs, 9⟩], 0, 0, .ACTIVE, none⟩

/-- Seat 1 holding A♥9♦ against the same board: the identical straight. -/
def pTied1 : Player :=
  ⟨1, 950, [⟨.hearts, 14⟩, ⟨.diamonds, 9⟩], 0, 0, .ACTIVE, none⟩

/-- Concrete showdown state with two tied winners and pot 101. -/
def gSplitPot : GameState :=
  ⟨[pTied0, pTied1], [⟨.clubs, 2⟩, ⟨.diamonds, 3⟩, ⟨.hearts, 4⟩, ⟨.spades, 5⟩],
    101, 0, 20, .RIVER, 0, 0, true, 1⟩

/-- C1: chip conservation fails on the code. In a 2-player game with
1000-chip starting stacks, a state with `sum(chips) + pot = 2000` is reached
in which the short stack (10 chips) faces a call of 30; the CALL is processed
successfully and clamped to the stack, but the pot gains the full 30 while
the player loses only 10, so afterwards `sum(chips) + pot = 2020`: the
invariant claimed after every successful (clamped) CALL is violated. -/
theorem C1_clamped_call_breaks_conservation :
    (process_player_action gShortCall .CALL 0).1 = true ∧
    chipSum gShortCall + gShortCall.pot = 2000 ∧
    chipSum (process_player_action gShortCall .CALL 0).2
      + (process_player_action gShortCall .CALL 0).2.pot = 2020 := by
  decide

/-- C4 (counterexample): the high-card fixture is wrong on the code. For
{2♣,4♦,6♥,8♠,10♣,K♦} (split 2♣4♦ private, rest shared) the evaluator returns
the best five as K,8,6,4,2 — the claimed best five {K,10,8,6,4} is not what
`evaluate_6_cards` produces (the capped kicker contribution ties every
king-high subset, and the first subset in combination order is kept). -/
theorem C4_high_card_fixture_counterexample :
    ((evaluate_6_cards [⟨.clubs, 2⟩, ⟨.diamonds, 4⟩]
        [⟨.hearts, 6⟩, ⟨.spades, 8⟩, ⟨.clubs, 10⟩, ⟨.diamonds, 13⟩]).map
      (fun e => ranksOf e.cards)) = some [13, 8, 6, 4, 2] ∧
    ¬ (10 ∈ [13, 8, 6, 4, 2]) := by
  decide

/-- C4 (amended): evaluator fixtures as the code computes them.
{A♠,K♠,Q♠,J♠,10♠,2♥} → ROYAL_FLUSH with best five A,K,Q,J,10 of spades;
{7♣,7♦,7♥,2♠,9♣,9♦} → FULL_HOUSE sevens over nines;
{2♣,3♦,4♥,5♠,A♦,9♣} → STRAIGHT with the ace played low and high card rank 5
(score 105, tie-break kicker 5);
{2♣,4♦,6♥,8♠,10♣,K♦} → HIGH_CARD, but with best five K,8,6,4,2: the capped
kicker score ties all king-high subsets and the first in combination order
wins, so the claimed {K,10,8,6,4} is replaced by {K,8,6,4,2}. -/
theorem C4_evaluator_fixtures :
    evaluate_6_cards [⟨.spades, 14⟩, ⟨.spades, 13⟩]
        [⟨.spades, 12⟩, ⟨.spades, 11⟩, ⟨.spades, 10⟩, ⟨.hearts, 2⟩]
      = some ⟨.ROYAL_FLUSH,
          [⟨.spades, 14⟩, ⟨.spades, 13⟩, ⟨.spades, 12⟩, ⟨.spades, 11⟩, ⟨.spades, 10⟩],
          10000, []⟩ ∧
    evaluate_6_cards [⟨.clubs, 7⟩, ⟨.diamonds, 7⟩]
        [⟨.hearts, 7⟩, ⟨.spades, 2⟩, ⟨.clubs, 9⟩, ⟨.diamonds, 9⟩]
      = some ⟨.FULL_HOUSE,
          [⟨.clubs, 9⟩, ⟨.diamonds, 9⟩, ⟨.clubs, 7⟩, ⟨.diamonds, 7⟩, ⟨.hearts, 7⟩],
          307, [7, 9]⟩ ∧
    evaluate_6_cards [⟨.clubs, 2⟩, ⟨.diamonds, 3⟩]
        [⟨.hearts, 4⟩, ⟨.spades, 5⟩, ⟨.diamonds, 14⟩, ⟨.clubs, 9⟩]
      = some ⟨.STRAIGHT,
          [⟨.diamonds, 14⟩, ⟨.spades, 5⟩, ⟨.hearts, 4⟩, ⟨.diamonds, 3⟩, ⟨.clubs, 2⟩],
          105, [5]⟩ ∧
    evaluate_6_cards [⟨.clubs, 2⟩, ⟨.diamonds, 4⟩]
        [⟨.hearts, 6⟩, ⟨.spades, 8⟩, ⟨.clubs, 10⟩, ⟨.diamonds, 13⟩]
      = some ⟨.HIGH_CARD,
          [⟨.diamonds, 13⟩, ⟨.spades, 8⟩, ⟨.hearts, 6⟩, ⟨.diamonds, 4⟩, ⟨.clubs, 2⟩],
          73, [13, 8, 6, 4, 2]⟩ := by
  decide

/-- C5: the completeness direction fails on the code. In the concrete
big-blind-option state, CHECK is in the acting player's legal actions, the
round is not complete, the player can act, and the player's round bet equals
the table bet — yet `process_player_action` returns failure with the state
unchanged, because `Player.check` demands the player's own round bet be 0.
The code contradicts its own `get_available_actions` contract. -/
theorem C5_bb_option_check_rejected :
    gBBOption.players.getD gBBOption.current_player dummyPlayer = pBB ∧
    PlayerAction.CHECK ∈ pBB.get_available_actions gBBOption.current_bet gBBOption.min_raise ∧
    pBB.current_bet = gBBOption.current_bet ∧
    gBBOption.betting_round_complete = false ∧
    pBB.can_act = true ∧
    process_player_action gBBOption .CHECK 0 = (false, gBBOption) := by
  decide

theorem showdown_current_bet (g : GameState) :
    (showdown g).current_bet = g.current_bet := by
  simp only [showdown]
  split
  · rfl
  · split <;> rfl

theorem showdown_min_raise (g : GameState) :
    (showdown g).min_raise = g.min_raise := by
  simp only [showdown]
  split
  · rfl
  · split <;> rfl

theorem cbrc_current_bet (g : GameState) :
    (check_betting_round_complete g).current_bet = g.current_bet := by
  simp only [check_betting_round_complete]
  split
  · rw [showdown_current_bet]
  · split
    · rfl
    · split
      · rfl
      · split <;> rfl

theorem cbrc_min_raise (g : GameState) :
    (check_betting_round_complete g).min_raise = g.min_raise := by
  simp only [check_betting_round_complete]
  split
  · rw [showdown_min_raise]
  · split
    · rfl
    · split
      · rfl
      · split <;> rfl

theorem raise_bet_success_current_bet (p : Player) (t : Int)
    (h : (p.raise_bet t).1 = true) : (p.raise_bet t).2.current_bet = t := by
  unfold Player.raise_bet Player.place_bet at h ⊢
  by_cases h0 : t - p.current_bet ≤ 0
  · simp [h0] at h
  · simp only [h0, if_false] at h ⊢
    by_cases h1 : p.chips < t - p.current_bet
    · simp [h1] at h
    · simp only [h1, if_false] at h ⊢
      simp

theorem raise_bet_success_iff (p : Player) (t : Int) :
    (p.raise_bet t).1 = true ↔ (0 < t - p.current_bet ∧ t - p.current_bet ≤ p.chips) := by
  unfold Player.raise_bet Player.place_bet
  by_cases h0 : t - p.current_bet ≤ 0
  · simp [h0]; omega
  · simp only [h0, if_false]
    by_cases h1 : p.chips < t - p.current_bet
    · simp [h1]; omega
    · simp [h1]; omega

/-- C6 (counterexample): in the concrete pre-flop state with table bet 20 and
minimum raise 20, a RAISE to 21 — below tableBet + minRaise = 40 — is
accepted by `process_player_action` and changes the state, refuting the
claim that such a raise is rejected with no state change. -/
theorem C6_short_raise_accepted :
    (21 : Int) < gPreflop.current_bet + gPreflop.min_raise ∧
    (process_player_action gPreflop .RAISE 21).1 = true ∧
    (process_player_action gPreflop .RAISE 21).2 ≠ gPreflop := by
  decide

/-- C6 (amended): `process_player_action(RAISE, amount)` fails, with the
state unchanged, exactly when the round is already complete, the acting
player cannot act, `amount` is not strictly greater than the table bet, or
the implied delta `amount - player.round_bet` is nonpositive or exceeds the
player's chips. The minimum-raise increment is never checked: any amount
strictly above the table bet that the player can afford is accepted. -/
theorem C6_raise_validation (g : GameState) (amount : Int) :
    ((process_player_action g .RAISE amount).1 = false ↔
      (g.betting_round_complete = true
        ∨ (g.players.getD g.current_player dummyPlayer).can_act = false
        ∨ amount ≤ g.current_bet
        ∨ amount - (g.players.getD g.current_player dummyPlayer).current_bet ≤ 0
        ∨ (g.players.getD g.current_player dummyPlayer).chips
            < amount - (g.players.getD g.current_player dummyPlayer).current_bet)) ∧
    ((process_player_action g .RAISE amount).1 = false →
      (process_player_action g .RAISE amount).2 = g) := by
  unfold process_player_action
  generalize hP : g.players.getD g.current_player dummyPlayer = P
  have hiff := raise_bet_success_iff P amount
  cases hb : g.betting_round_complete
  · cases hca : P.can_act
    · simp [hb, hca]
    · by_cases hlt : g.current_bet < amount
      · cases hr : (P.raise_bet amount).1
        · rw [hr] at hiff
          simp only [Bool.false_eq_true, false_iff] at hiff
          simp [hb, hca, hlt, hr]
          omega
        · rw [hr] at hiff
          simp only [true_iff] at hiff
          simp [hb, hca, hlt, hr]
          omega
      · simp [hb, hca, hlt]
        omega
  · simp [hb]

/-- C6 (witness for the amended theorem): a RAISE to 10 in the concrete
pre-flop state (table bet 20) fails and leaves the state unchanged. -/
theorem C6_raise_validation_witness :
    (process_player_action gPreflop .RAISE 10).1 = false ∧
    (process_player_action gPreflop .RAISE 10).2 = gPreflop := by
  have h := C6_raise_validation gPreflop 10
  refine ⟨h.1.mpr ?_, h.2 (h.1.mpr ?_)⟩ <;>
    exact Or.inr (Or.inr (Or.inl (by decide)))

/-- C7 (counterexample): the small blind (round bet 10) raises to 50 against
table bet 20. The claim says minRaise becomes 50 - 20 = 30; the code sets it
to max(20, 50 - 10) = 40 — the increment is measured from the player's own
round bet, clamped below by the previous minimum raise. -/
theorem C7_min_raise_uses_player_delta :
    (process_player_action gPreflop .RAISE 50).1 = true ∧
    (process_player_action gPreflop .RAISE 50).2.current_bet = 50 ∧
    (process_player_action gPreflop .RAISE 50).2.min_raise = 40 ∧
    (50 : Int) - gPreflop.current_bet = 30 ∧ (40 : Int) ≠ 30 := by
  decide

/-- C7 (amended): after every successful `process_player_action(RAISE,
amount)`, the table bet equals `amount` and the minimum raise equals
`max(previous minRaise, amount - the acting player's round bet before the
raise)` — not `amount` minus the previous table bet. -/
theorem C7_raise_bookkeeping (g : GameState) (amount : Int)
    (h : (process_player_action g .RAISE amount).1 = true) :
    (process_player_action g .RAISE amount).2.current_bet = amount ∧
    (process_player_action g .RAISE amount).2.min_raise
      = max g.min_raise
          (amount - (g.players.getD g.current_player dummyPlayer).current_bet) := by
  unfold process_player_action at h ⊢
  generalize hP : g.players.getD g.current_player dummyPlayer = P at h ⊢
  cases hb : g.betting_round_complete
  · rw [hb] at h
    cases hca : P.can_act
    · simp [hca] at h
    · by_cases hlt : g.current_bet < amount
      · cases hr : (P.raise_bet amount).1
        · simp [hca, hlt, hr] at h
        · have hcb := raise_bet_success_current_bet P amount hr
          simp [hca, hlt, hr, cbrc_current_bet, cbrc_min_raise, move_to_next_player]
          omega
      · simp [hca, hlt] at h
  · rw [hb] at h
    simp at h

/-- C7 (witness for the amended theorem): instantiated at the concrete raise
to 50 by the small blind, giving table bet 50 and minimum raise
max(20, 50 - 10) = 40. -/
theorem C7_raise_bookkeeping_witness :
    (process_player_action gPreflop .RAISE 50).2.current_bet = 50 ∧
    (process_player_action gPreflop .RAISE 50).2.min_raise
      = max gPreflop.min_raise
          (50 - (gPreflop.players.getD gPreflop.current_player dummyPlayer).current_bet) :=
  C7_raise_bookkeeping gPreflop 50 (by decide)

theorem popMany_lengths (n : Nat) :
    ∀ d : List Card, n ≤ d.length →
      (popMany n d).1.length = n ∧ (popMany n d).2.length = d.length - n := by
  induction n with
  | zero => intro d _; simp [popMany]
  | succ k ih =>
    intro d h
    have hne : d ≠ [] := by
      intro he
      subst he
      simp at h
    obtain ⟨c, hc⟩ := Option.isSome_iff_exists.mp (List.getLast?_isSome.mpr hne)
    have hdl : d.dropLast.length = d.length - 1 := List.length_dropLast d
    have hk : k ≤ d.dropLast.length := by omega
    obtain ⟨ih1, ih2⟩ := ih d.dropLast hk
    simp only [popMany, deal_card, hc]
    constructor
    · simpa using ih1
    · simp only [ih2]
      omega

theorem full_deck_length : full_deck.length = 52 := by
  decide

/-- C8: `Deck.deal_cards(n)` errors exactly when `n` exceeds the remaining
count; otherwise it returns exactly `n` cards and the remaining count drops
by `n`. `DeckManager.get_cards(n)` never errors for `n ≤ 52` (the shuffle
being any length-preserving rearrangement of the rebuilt full deck): on an
insufficient deck it rebuilds the shuffled 52-card deck, retries once, and
returns exactly `n` cards. -/
theorem C8_deck_exhaustion (deck : List Card) (n : Nat) (shuf : List Card → List Card)
    (hshuf : (shuf full_deck).length = full_deck.length) (hn : n ≤ 52) :
    ((∃ e, deal_cards deck n = .error e) ↔ deck.length < n) ∧
    (∀ dealt rest, deal_cards deck n = .ok (dealt, rest) →
      dealt.length = n ∧ rest.length = deck.length - n) ∧
    (∃ dealt rest, manager_get_cards shuf deck n = .ok (dealt, rest) ∧ dealt.length = n) := by
  refine ⟨?_, ?_, ?_⟩
  · unfold deal_cards
    by_cases hlt : deck.length < n
    · simp [hlt]
    · simp [hlt]
  · intro dealt rest hok
    unfold deal_cards at hok
    by_cases hlt : deck.length < n
    · simp [hlt] at hok
    · simp only [hlt, if_false, Except.ok.injEq] at hok
      obtain ⟨h1, h2⟩ := popMany_lengths n deck (by omega)
      rw [hok] at h1 h2
      exact ⟨h1, h2⟩
  · unfold manager_get_cards
    cases hd : deal_cards deck n with
    | ok r =>
      refine ⟨r.1, r.2, rfl, ?_⟩
      unfold deal_cards at hd
      by_cases hlt : deck.length < n
      · simp [hlt] at hd
      · simp only [hlt, if_false, Except.ok.injEq] at hd
        rw [← hd]
        exact (popMany_lengths n deck (by omega)).1
    | error e =>
      have hlen : n ≤ (shuf full_deck).length := by
        rw [hshuf, full_deck_length]
        exact hn
      unfold deal_cards
      simp only [Nat.not_lt.mpr hlen, if_neg (by omega : ¬ (shuf full_deck).length < n)]
      exact ⟨_, _, rfl, (popMany_lengths n (shuf full_deck) hlen).1⟩

/-- C8 (witness): drawing 52 cards from an exhausted deck succeeds via the
rebuild-and-retry path. -/
theorem C8_deck_exhaustion_witness :
    (manager_get_cards id ([] : List Card) 52).isOk = true := by
  obtain ⟨dealt, rest, he, -⟩ := (C8_deck_exhaustion [] 52 id rfl (by decide)).2.2
  rw [he]
  rfl

/-- C9: every player betting operation conserves `chips + total_bet`,
succeeding or not, and on success moves exactly the wagered delta out of
chips and into both the round bet and the hand bet: the requested amount for
`place_bet`, the stack-clamped amount for `call`, the difference to the
target for `raise_bet`, and the whole stack for `all_in`. -/
theorem C9_player_wealth_conservation (p : Player) (amount : Int) :
    ((p.place_bet amount).2.chips + (p.place_bet amount).2.total_bet
        = p.chips + p.total_bet
      ∧ ((p.place_bet amount).1 = true →
          (p.place_bet amount).2.chips = p.chips - amount
          ∧ (p.place_bet amount).2.current_bet = p.current_bet + amount
          ∧ (p.place_bet amount).2.total_bet = p.total_bet + amount))
    ∧ ((p.call amount).2.chips + (p.call amount).2.total_bet = p.chips + p.total_bet
      ∧ ((p.call amount).1 = true →
          (p.call amount).2.chips = p.chips - min amount p.chips
          ∧ (p.call amount).2.current_bet = p.current_bet + min amount p.chips
          ∧ (p.call amount).2.total_bet = p.total_bet + min amount p.chips))
    ∧ ((p.raise_bet amount).2.chips + (p.raise_bet amount).2.total_bet
        = p.chips + p.total_bet
      ∧ ((p.raise_bet amount).1 = true →
          (p.raise_bet amount).2.chips = p.chips - (amount - p.current_bet)
          ∧ (p.raise_bet amount).2.current_bet = p.current_bet + (amount - p.current_bet)
          ∧ (p.raise_bet amount).2.total_bet = p.total_bet + (amount - p.current_bet)))
    ∧ (p.all_in.2.chips + p.all_in.2.total_bet = p.chips + p.total_bet
      ∧ (0 < p.chips →
          p.all_in.2.chips = 0
          ∧ p.all_in.2.current_bet = p.current_bet + p.chips
          ∧ p.all_in.2.total_bet = p.total_bet + p.chips)) := by
  refine ⟨?_, ?_, ?_, ?_⟩
  · unfold Player.place_bet
    by_cases hc : p.chips < amount
    · simp [hc]
    · simp only [if_neg hc]
      refine ⟨?_, fun _ => ⟨?_, ?_, ?_⟩⟩ <;> simp <;> try omega
  · unfold Player.call Player.place_bet
    by_cases hc : p.chips < min amount p.chips
    · simp [hc]
    · simp only [if_neg hc]
      refine ⟨?_, fun _ => ⟨?_, ?_, ?_⟩⟩ <;> simp <;> try omega
  · unfold Player.raise_bet Player.place_bet
    by_cases h0 : amount - p.current_bet ≤ 0
    · simp [h0]
    · simp only [if_neg h0]
      by_cases hc : p.chips < amount - p.current_bet
      · simp [hc]
      · simp only [if_neg hc]
        refine ⟨?_, fun _ => ⟨?_, ?_, ?_⟩⟩ <;> simp <;> try omega
  · unfold Player.all_in Player.place_bet
    by_cases h0 : 0 < p.chips
    · have hc : ¬ p.chips < p.chips := by omega
      simp only [if_pos h0, if_neg hc]
      refine ⟨?_, fun _ => ⟨?_, ?_, ?_⟩⟩ <;> simp <;> try omega
    · simp [h0]

/-- C9 (witness): the big-blind player (980 chips, round bet 20) with
amount 30: a placed bet debits 30, a call moves the clamped 30 into the hand
bet, a raise to 30 moves the round bet to 30, and an all-in empties the
stack. -/
theorem C9_player_wealth_conservation_witness :
    (pBB.place_bet 30).2.chips = pBB.chips - 30
    ∧ (pBB.call 30).2.total_bet = pBB.total_bet + min 30 pBB.chips
    ∧ (pBB.raise_bet 30).2.current_bet = pBB.current_bet + (30 - pBB.current_bet)
    ∧ pBB.all_in.2.chips = 0 := by
  have h := C9_player_wealth_conservation pBB 30
  exact ⟨(h.1.2 (by decide)).1, (h.2.1.2 (by decide)).2.2,
    (h.2.2.1.2 (by decide)).2.1, (h.2.2.2.2 (by decide)).1⟩

/-- C10: `eliminate_players` marks OUT exactly the players with chips ≤ 0
that are not already OUT and returns precisely those players (in seat order,
with their new OUT status); running it again immediately afterwards returns
the empty list and leaves every player unchanged. -/
theorem C10_eliminate_idempotent (ps : List Player) :
    (eliminate_players ps).1
      = ps.map (fun p =>
          if p.chips ≤ 0 ∧ p.status ≠ PlayerStatus.OUT
          then { p with status := .OUT } else p)
    ∧ (eliminate_players ps).2
      = (ps.filter (fun p =>
            decide (p.chips ≤ 0) && decide (p.status ≠ PlayerStatus.OUT))).map
          (fun p => { p with status := .OUT })
    ∧ eliminate_players (eliminate_players ps).1 = ((eliminate_players ps).1, []) := by
  induction ps with
  | nil => simp [eliminate_players]
  | cons p ps ih =>
    obtain ⟨ih1, ih2, ih3⟩ := ih
    by_cases hp : p.chips ≤ 0 ∧ p.status ≠ PlayerStatus.OUT
    · refine ⟨?_, ?_, ?_⟩
      · simp only [eliminate_players, if_pos hp, List.map_cons, if_pos hp, ih1]
      · simp only [eliminate_players, if_pos hp, List.filter_cons,
          List.map_cons, ih2]
        rw [if_pos (by simpa using hp)]
        simp only [List.map_cons]
      · simp only [eliminate_players, if_pos hp]
        have hout : ¬ (({ p with status := PlayerStatus.OUT } : Player).chips ≤ 0
            ∧ ({ p with status := PlayerStatus.OUT } : Player).status ≠ PlayerStatus.OUT) := by
          simp
        simp only [eliminate_players, if_neg hout, ih3]
    · refine ⟨?_, ?_, ?_⟩
      · simp only [eliminate_players, if_neg hp, List.map_cons, if_neg hp, ih1]
      · simp only [eliminate_players, if_neg hp, List.filter_cons, ih2]
        rw [if_neg (by simpa using hp)]
      · simp only [eliminate_players, if_neg hp, ih3]

theorem mem_insDesc (key : α → Nat) (a x : α) (l : List α) :
    x ∈ insDesc key a l ↔ x = a ∨ x ∈ l := by
  induction l with
  | nil => simp [insDesc]
  | cons y ys ih =>
    unfold insDesc
    by_cases h : key y ≤ key a
    · simp [h]
    · simp only [h, if_false, List.mem_cons, ih]
      tauto

theorem sortDesc_cons (key : α → Nat) (y : α) (ys : List α) :
    sortDesc key (y :: ys) = insDesc key y (sortDesc key ys) :=
  rfl

theorem mem_sortDesc (key : α → Nat) (x : α) (l : List α) :
    x ∈ sortDesc key l ↔ x ∈ l := by
  induction l with
  | nil => simp [sortDesc]
  | cons y ys ih =>
    rw [sortDesc_cons, mem_insDesc]
    simp [ih]

theorem firstUniq_subset (x : Nat) : ∀ l : List Nat, x ∈ firstUniq l → x ∈ l := by
  intro l
  induction l with
  | nil => simp [firstUniq]
  | cons y ys ih =>
    simp only [firstUniq, List.mem_cons]
    rintro (rfl | hx)
    · exact Or.inl rfl
    · exact Or.inr (ih (List.mem_of_mem_filter hx))

theorem foldl_max_le (b : Nat) : ∀ (l : List Nat) (init : Nat), init ≤ b →
    (∀ x ∈ l, x ≤ b) → l.foldl max init ≤ b := by
  intro l
  induction l with
  | nil =>
    intro init h _
    simpa using h
  | cons y ys ih =>
    intro init hi hl
    simp only [List.foldl_cons]
    exact ih (max init y) (max_le hi (hl y (by simp))) (fun x hx => hl x (by simp [hx]))

theorem maxRank_le (cards : List Card) (hb : ∀ c ∈ cards, c.rank ≤ 14) :
    maxRank cards ≤ 14 := by
  unfold maxRank
  apply foldl_max_le
  · omega
  · intro x hx
    obtain ⟨c, hc, rfl⟩ := List.mem_map.mp hx
    exact hb c hc

theorem ranksOf_le (cards : List Card) (hb : ∀ c ∈ cards, c.rank ≤ 14) :
    ∀ x ∈ ranksOf cards, x ≤ 14 := by
  intro x hx
  obtain ⟨c, hc, rfl⟩ := List.mem_map.mp hx
  exact hb c hc

theorem rankCounts_fst_le (cards : List Card) (hb : ∀ c ∈ cards, c.rank ≤ 14)
    (rc : Nat × Nat) (h : rc ∈ rankCounts cards) : rc.1 ≤ 14 := by
  unfold rankCounts at h
  obtain ⟨r, hr, heq⟩ := List.mem_map.mp h
  subst heq
  exact ranksOf_le cards hb r (firstUniq_subset r _ hr)

theorem headD_le (l : List Nat) (b : Nat) (hb : ∀ x ∈ l, x ≤ b) : l.headD 0 ≤ b := by
  cases l with
  | nil => simp
  | cons y ys => exact hb y (by simp)

theorem check_straight_flush_score_le (s : List Card) (e : HandEvaluation)
    (hb : ∀ c ∈ s, c.rank ≤ 14) (h : check_straight_flush s = some e) :
    e.score ≤ 514 := by
  by_cases hf : (is_flush s && is_straight_values (ranksOf s)) = true
  · simp only [check_straight_flush, hf, if_true, Option.some.injEq] at h
    subst h
    have := maxRank_le s hb
    dsimp
    split
    · omega
    · omega
  · simp [check_straight_flush, hf] at h

theorem check_four_of_a_kind_score_le (s : List Card) (e : HandEvaluation)
    (hb : ∀ c ∈ s, c.rank ≤ 14) (h : check_four_of_a_kind s = some e) :
    e.score ≤ 514 := by
  cases hf : (rankCounts s).find? (fun rc => rc.2 == 4) with
  | none => simp [check_four_of_a_kind, hf] at h
  | some rc =>
    simp only [check_four_of_a_kind, hf, Option.some.injEq] at h
    subst h
    have := rankCounts_fst_le s hb rc (List.mem_of_find?_eq_some hf)
    dsimp
    omega

theorem fh_fold_fst_mem : ∀ (l : List (Nat × Nat)) (acc : Option Nat × Option Nat) (t : Nat),
    (l.foldl fhStep acc).1 = some t → acc.1 = some t ∨ t ∈ l.map (·.1) := by
  intro l
  induction l with
  | nil =>
    intro acc t h
    exact Or.inl h
  | cons rc rest ih =>
    intro acc t h
    simp only [List.foldl_cons] at h
    rcases ih (fhStep acc rc) t h with h1 | h2
    · unfold fhStep at h1
      by_cases h3 : (rc.2 == 3) = true
      · rw [if_pos h3] at h1
        simp only [Option.some.injEq] at h1
        exact Or.inr (by simp [h1])
      · rw [if_neg h3] at h1
        by_cases h2c : (rc.2 == 2) = true
        · rw [if_pos h2c] at h1
          exact Or.inl h1
        · rw [if_neg h2c] at h1
          exact Or.inl h1
    · refine Or.inr ?_
      simp only [List.map_cons, List.mem_cons]
      exact Or.inr h2

theorem check_full_house_score_le (s : List Card) (e : HandEvaluation)
    (hb : ∀ c ∈ s, c.rank ≤ 14) (h : check_full_house s = some e) :
    e.score ≤ 514 := by
  simp only [check_full_house] at h
  cases htp : (rankCounts s).foldl fhStep ((none, none) : Option Nat × Option Nat) with
  | mk to? po? =>
    rw [htp] at h
    cases to? with
    | none => simp at h
    | some t =>
      cases po? with
      | none => simp at h
      | some p =>
        by_cases hnz : (t != 0 && p != 0) = true
        · simp only [hnz, if_true, Option.some.injEq] at h
          subst h
          have ht : t ≤ 14 := by
            rcases fh_fold_fst_mem (rankCounts s) (none, none) t (by rw [htp]) with h1 | h2
            · simp at h1
            · obtain ⟨rc, hrc, hr⟩ := List.mem_map.mp h2
              have := rankCounts_fst_le s hb rc hrc
              omega
          dsimp
          omega
        · simp [hnz] at h

theorem check_flush_score_le (s : List Card) (e : HandEvaluation)
    (hb : ∀ c ∈ s, c.rank ≤ 14) (h : check_flush s = some e) :
    e.score ≤ 514 := by
  by_cases hf : is_flush s = true
  · simp only [check_flush, hf, if_true, Option.some.injEq] at h
    subst h
    have : (sortDesc id (ranksOf s)).headD 0 ≤ 14 := by
      apply headD_le
      intro x hx
      exact ranksOf_le s hb x ((mem_sortDesc id x _).mp hx)
    dsimp
    omega
  · simp [check_flush, hf] at h

theorem check_straight_score_le (s : List Card) (e : HandEvaluation)
    (hb : ∀ c ∈ s, c.rank ≤ 14) (h : check_straight s = some e) :
    e.score ≤ 514 := by
  by_cases hf : is_straight_values (ranksOf s) = true
  · simp only [check_straight, hf, if_true] at h
    have := maxRank_le s hb
    split at h <;> (simp only [Option.some.injEq] at h; subst h; dsimp; omega)
  · simp [check_straight, hf] at h

theorem check_three_of_a_kind_score_le (s : List Card) (e : HandEvaluation)
    (hb : ∀ c ∈ s, c.rank ≤ 14) (h : check_three_of_a_kind s = some e) :
    e.score ≤ 514 := by
  cases hf : (rankCounts s).find? (fun rc => rc.2 == 3) with
  | none => simp [check_three_of_a_kind, hf] at h
  | some rc =>
    simp only [check_three_of_a_kind, hf, Option.some.injEq] at h
    subst h
    have := rankCounts_fst_le s hb rc (List.mem_of_find?_eq_some hf)
    dsimp
    omega

theorem check_two_pair_score_le (s : List Card) (e : HandEvaluation)
    (hb : ∀ c ∈ s, c.rank ≤ 14) (h : check_two_pair s = some e) :
    e.score ≤ 514 := by
  simp only [check_two_pair, Option.ite_none_right_eq_some, Option.some.injEq] at h
  obtain ⟨-, he⟩ := h
  subst he
  have hps : (sortDesc id (((rankCounts s).filter (fun rc => rc.2 == 2)).map (·.1))).headD 0
      ≤ 14 := by
    apply headD_le
    intro x hx
    obtain ⟨rc, hrc, hr⟩ :=
      List.mem_map.mp ((mem_sortDesc id x _).mp hx)
    have := rankCounts_fst_le s hb rc (List.mem_of_mem_filter hrc)
    omega
  dsimp
  omega

theorem check_pair_score_le (s : List Card) (e : HandEvaluation)
    (hb : ∀ c ∈ s, c.rank ≤ 14) (h : check_pair s = some e) :
    e.score ≤ 514 := by
  cases hf : (rankCounts s).find? (fun rc => rc.2 == 2) with
  | none => simp [check_pair, hf] at h
  | some rc =>
    simp only [check_pair, hf, Option.some.injEq] at h
    subst h
    have := rankCounts_fst_le s hb rc (List.mem_of_find?_eq_some hf)
    dsimp
    omega

theorem check_high_card_score_le (s : List Card)
    (hb : ∀ c ∈ s, c.rank ≤ 14) : (check_high_card s).score ≤ 514 := by
  have : (sortDesc id (ranksOf s)).headD 0 ≤ 14 := by
    apply headD_le
    intro x hx
    exact ranksOf_le s hb x ((mem_sortDesc id x _).mp hx)
  dsimp [check_high_card]
  omega

theorem classify5_bound (s : List Card) (hb : ∀ c ∈ s, c.rank ≤ 14) :
    (classify5 s).hand_type = .ROYAL_FLUSH ∨ (classify5 s).score ≤ 514 := by
  unfold classify5
  by_cases hroyal : is_royal_flush s = true
  · rw [if_pos hroyal]
    exact Or.inl rfl
  · rw [if_neg hroyal]
    cases h1 : check_straight_flush s with
    | some e => exact Or.inr (check_straight_flush_score_le s e hb h1)
    | none =>
    cases h2 : check_four_of_a_kind s with
    | some e => exact Or.inr (check_four_of_a_kind_score_le s e hb h2)
    | none =>
    cases h3 : check_full_house s with
    | some e => exact Or.inr (check_full_house_score_le s e hb h3)
    | none =>
    cases h4 : check_flush s with
    | some e => exact Or.inr (check_flush_score_le s e hb h4)
    | none =>
    cases h5 : check_straight s with
    | some e => exact Or.inr (check_straight_score_le s e hb h5)
    | none =>
    cases h6 : check_three_of_a_kind s with
    | some e => exact Or.inr (check_three_of_a_kind_score_le s e hb h6)
    | none =>
    cases h7 : check_two_pair s with
    | some e => exact Or.inr (check_two_pair_score_le s e hb h7)
    | none =>
    cases h8 : check_pair s with
    | some e => exact Or.inr (check_pair_score_le s e hb h8)
    | none => exact Or.inr (check_high_card_score_le s hb)

theorem evaluate_5_cards_bound (cards : List Card) (hb : ∀ c ∈ cards, c.rank ≤ 14) :
    (evaluate_5_cards cards).hand_type = .ROYAL_FLUSH
      ∨ (evaluate_5_cards cards).score ≤ 514 := by
  apply classify5_bound
  intro c hc
  exact hb c ((mem_sortDesc _ c cards).mp hc)

theorem handType_value_le (t : HandType) : t.value ≤ 10 := by
  cases t <;> decide

/-- C3: category dominates kickers. For any two 5-card hands over cards with
legal ranks (at most 14), if the first hand's category index is strictly
greater than the second's, the first hand's total score is strictly greater,
whatever the intra-category values and kickers: the capped kicker
contribution (at most 99999) and the intra-category score of a non-royal
category (at most 514) never bridge the 1,000,000-wide category bands. -/
theorem C3_score_monotonicity (c1 c2 : List Card)
    (hb1 : ∀ c ∈ c1, c.rank ≤ 14) (hb2 : ∀ c ∈ c2, c.rank ≤ 14)
    (hgt : (evaluate_5_cards c2).hand_type.value < (evaluate_5_cards c1).hand_type.value) :
    calculate_total_score (evaluate_5_cards c2)
      < calculate_total_score (evaluate_5_cards c1) := by
  have hv1 := handType_value_le (evaluate_5_cards c1).hand_type
  rcases evaluate_5_cards_bound c2 hb2 with hr | hs
  · rw [hr] at hgt
    rw [show HandType.value .ROYAL_FLUSH = 10 from rfl] at hgt
    omega
  · unfold calculate_total_score
    have hk2 : min (kicker_raw (evaluate_5_cards c2).kickers) 99999 ≤ 99999 :=
      min_le_right _ _
    omega

/-- C3 (witness): a royal flush (category 10) concretely outscores a king-high
high card (category 1). -/
theorem C3_score_monotonicity_witness :
    calculate_total_score (evaluate_5_cards
      [⟨.diamonds, 13⟩, ⟨.spades, 8⟩, ⟨.hearts, 6⟩, ⟨.diamonds, 4⟩, ⟨.clubs, 2⟩])
    < calculate_total_score (evaluate_5_cards
      [⟨.spades, 14⟩, ⟨.spades, 13⟩, ⟨.spades, 12⟩, ⟨.spades, 11⟩, ⟨.spades, 10⟩]) :=
  C3_score_monotonicity
    [⟨.spades, 14⟩, ⟨.spades, 13⟩, ⟨.spades, 12⟩, ⟨.spades, 11⟩, ⟨.spades, 10⟩]
    [⟨.diamonds, 13⟩, ⟨.spades, 8⟩, ⟨.hearts, 6⟩, ⟨.diamonds, 4⟩, ⟨.clubs, 2⟩]
    (by decide) (by decide) (by decide)

theorem insDesc_perm (key : α → Nat) (a : α) (l : List α) :
    (insDesc key a l).Perm (a :: l) := by
  induction l with
  | nil => exact List.Perm.refl _
  | cons y ys ih =>
    unfold insDesc
    by_cases h : key y ≤ key a
    · rw [if_pos h]
    · rw [if_neg h]
      exact (ih.cons y).trans (List.Perm.swap a y ys)

theorem sortDesc_perm (key : α → Nat) (l : List α) : (sortDesc key l).Perm l := by
  induction l with
  | nil => exact List.Perm.refl _
  | cons y ys ih =>
    rw [sortDesc_cons]
    exact (insDesc_perm key y (sortDesc key ys)).trans (ih.cons y)

theorem insDesc_pairwise (key : α → Nat) (a : α) (l : List α)
    (hl : l.Pairwise (fun x y => key y ≤ key x)) :
    (insDesc key a l).Pairwise (fun x y => key y ≤ key x) := by
  induction l with
  | nil => simp [insDesc]
  | cons y ys ih =>
    rcases List.pairwise_cons.mp hl with ⟨hy, hys⟩
    unfold insDesc
    by_cases h : key y ≤ key a
    · rw [if_pos h]
      refine List.pairwise_cons.mpr ⟨?_, hl⟩
      intro b hb
      rcases List.mem_cons.mp hb with rfl | hb2
      · exact h
      · exact le_trans (hy b hb2) h
    · rw [if_neg h]
      refine List.pairwise_cons.mpr ⟨?_, ih hys⟩
      intro b hb
      rcases (mem_insDesc key a b ys).mp hb with rfl | hb2
      · omega
      · exact hy b hb2

theorem sortDesc_pairwise (key : α → Nat) (l : List α) :
    (sortDesc key l).Pairwise (fun x y => key y ≤ key x) := by
  induction l with
  | nil => simp [sortDesc]
  | cons y ys ih =>
    rw [sortDesc_cons]
    exact insDesc_pairwise key y _ ih

theorem insDesc_filter_class (key : α → Nat) (c : Nat) (a : α) (l : List α) :
    (insDesc key a l).filter (fun x => key x == c)
      = if key a = c then a :: l.filter (fun x => key x == c)
        else l.filter (fun x => key x == c) := by
  induction l with
  | nil =>
    by_cases hac : key a = c <;> simp [insDesc, List.filter_cons, hac]
  | cons y ys ih =>
    unfold insDesc
    by_cases h : key y ≤ key a
    · rw [if_pos h]
      by_cases hac : key a = c <;> simp [List.filter_cons, hac]
    · rw [if_neg h]
      simp only [List.filter_cons, ih]
      by_cases hac : key a = c
      · have hyc : ¬ key y = c := by omega
        simp [hac, hyc]
      · by_cases hyc : key y = c <;> simp [hac, hyc]

theorem sortDesc_filter_class (key : α → Nat) (c : Nat) (l : List α) :
    (sortDesc key l).filter (fun x => key x == c) = l.filter (fun x => key x == c) := by
  induction l with
  | nil => rfl
  | cons y ys ih =>
    rw [sortDesc_cons, insDesc_filter_class]
    by_cases hyc : key y = c <;> simp [List.filter_cons, hyc, ih]

theorem takeWhile_class_eq_filter (key : α → Nat) (c : Nat) :
    ∀ S : List α, S.Pairwise (fun x y => key y ≤ key x) → (∀ x ∈ S, key x ≤ c) →
      S.takeWhile (fun x => key x == c) = S.filter (fun x => key x == c) := by
  intro S
  induction S with
  | nil =>
    intro _ _
    rfl
  | cons a S2 ih =>
    intro hp hb
    rcases List.pairwise_cons.mp hp with ⟨ha, hp2⟩
    by_cases hac : key a = c
    · rw [List.takeWhile_cons, List.filter_cons]
      simp only [hac, beq_self_eq_true, if_true]
      rw [ih hp2 (fun x hx => hb x (List.mem_cons_of_mem _ hx))]
    · have hbeq : (key a == c) = false := by simp [hac]
      rw [List.takeWhile_cons, List.filter_cons, hbeq]
      simp only [Bool.false_eq_true, if_false]
      rw [eq_comm, List.filter_eq_nil_iff]
      intro x hx
      have h1 : key x ≤ key a := ha x hx
      have h2 : key a ≤ c := hb a (List.mem_cons_self _ _)
      simp only [beq_iff_eq]
      omega

theorem foldl_max_ge_init : ∀ (l : List Nat) (init : Nat), init ≤ l.foldl max init := by
  intro l
  induction l with
  | nil => intro init; simp
  | cons y ys ih =>
    intro init
    simp only [List.foldl_cons]
    exact le_trans (le_max_left init y) (ih (max init y))

theorem foldl_max_ge_mem : ∀ (l : List Nat) (init x : Nat), x ∈ l → x ≤ l.foldl max init := by
  intro l
  induction l with
  | nil => intro init x hx; simp at hx
  | cons y ys ih =>
    intro init x hx
    simp only [List.foldl_cons]
    rcases List.mem_cons.mp hx with rfl | hx2
    · exact le_trans (le_max_right init x) (foldl_max_ge_init ys _)
    · exact ih _ x hx2

theorem foldl_max_eq_of (L : List Nat) (m : Nat) (hub : ∀ x ∈ L, x ≤ m) (hmem : m ∈ L) :
    L.foldl max 0 = m :=
  le_antisymm (foldl_max_le m L 0 (by omega) hub) (foldl_max_ge_mem L 0 m hmem)

theorem modifyIdx_get? (f : α → α) :
    ∀ (l : List α) (i j : Nat),
      (modifyIdx i f l).get? j = if i = j then (l.get? j).map f else l.get? j := by
  intro l
  induction l with
  | nil =>
    intro i j
    simp only [modifyIdx]
    split <;> rfl
  | cons x xs ih =>
    intro i j
    cases i with
    | zero =>
      cases j with
      | zero => simp [modifyIdx]
      | succ j2 => simp [modifyIdx]
    | succ i2 =>
      cases j with
      | zero => simp [modifyIdx]
      | succ j2 => simpa [modifyIdx] using ih i2 j2

theorem modifyIdx_length (f : α → α) :
    ∀ (l : List α) (i : Nat), (modifyIdx i f l).length = l.length := by
  intro l
  induction l with
  | nil => intro i; simp [modifyIdx]
  | cons x xs ih =>
    intro i
    cases i with
    | zero => simp [modifyIdx]
    | succ i2 => simpa [modifyIdx] using ih i2

theorem sum_map_modifyIdx (f : Player → Player) (a : Int)
    (hf : ∀ p, (f p).chips = p.chips + a) :
    ∀ (ps : List Player) (i : Nat), i < ps.length →
      ((modifyIdx i f ps).map (·.chips)).sum = ((ps.map (·.chips)).sum) + a := by
  intro ps
  induction ps with
  | nil => intro i hi; simp at hi
  | cons p ps ih =>
    intro i hi
    cases i with
    | zero =>
      simp only [modifyIdx, List.map_cons, List.sum_cons, hf p]
      ring
    | succ i2 =>
      have := ih i2 (by simpa using hi)
      simp only [modifyIdx, List.map_cons, List.sum_cons, this]
      ring

theorem idxOf?_eq_none (j : Nat) : ∀ l : List Nat, j ∉ l → idxOf? j l = none := by
  intro l
  induction l with
  | nil => intro _; rfl
  | cons x xs ih =>
    intro h
    unfold idxOf?
    rw [if_neg (by intro he; exact h (he ▸ List.mem_cons_self x xs)), ih (fun hm => h (List.mem_cons_of_mem _ hm))]
    rfl

theorem filterMap_length_of_isSome (f : α → Option β) :
    ∀ l : List α, (∀ x ∈ l, (f x).isSome) → (l.filterMap f).length = l.length := by
  intro l
  induction l with
  | nil => intro _; rfl
  | cons x xs ih =>
    intro h
    obtain ⟨y, hy⟩ := Option.isSome_iff_exists.mp (h x (List.mem_cons_self _ _))
    rw [List.filterMap_cons, hy]
    simp only [List.length_cons]
    rw [ih (fun z hz => h z (List.mem_cons_of_mem _ hz))]

theorem filterMap_fst_sublist (f : (Nat × Player) → Option (Nat × HandEvaluation))
    (hf : ∀ x y, f x = some y → y.1 = x.1) :
    ∀ l : List (Nat × Player),
      ((l.filterMap f).map (·.1)).Sublist (l.map (·.1)) := by
  intro l
  induction l with
  | nil => exact List.Sublist.refl _
  | cons x xs ih =>
    rw [List.filterMap_cons]
    cases hfx : f x with
    | none => exact ih.cons x.1
    | some y =>
      simp only [List.map_cons]
      rw [hf x y hfx]
      exact ih.cons₂ x.1

theorem mem_enum_lt (l : List Player) (i : Nat) (p : Player) (h : (i, p) ∈ l.enum) :
    i < l.length := by
  have : i ∈ l.enum.map Prod.fst := List.mem_map_of_mem Prod.fst h
  rw [List.enum_map_fst] at this
  exact List.mem_range.mp this

theorem applyAwards_eq_foldl (pp rem : Int) (ws : List (Nat × HandEvaluation))
    (ps : List Player) :
    applyAwards pp rem ws ps
      = (ws.enumFrom 0).foldl
          (fun acc iw =>
            modifyIdx iw.2.1
              (fun p =>
                { p with chips := p.chips + pp + (if (iw.1 : Int) < rem then 1 else 0) })
              acc)
          ps :=
  rfl

theorem awardsFold_get? (pp rem : Int) :
    ∀ (ws : List (Nat × HandEvaluation)) (o : Nat) (ps : List Player),
      ((ws.map (·.1)).Pairwise (· < ·)) →
      ∀ j, ((ws.enumFrom o).foldl
          (fun acc iw =>
            modifyIdx iw.2.1
              (fun p =>
                { p with chips := p.chips + pp + (if (iw.1 : Int) < rem then 1 else 0) })
              acc)
          ps).get? j
        = match idxOf? j (ws.map (·.1)) with
          | none => ps.get? j
          | some i => (ps.get? j).map
              (fun p =>
                { p with chips := p.chips + pp + (if ((o + i : Nat) : Int) < rem then 1 else 0) }) := by
  intro ws
  induction ws with
  | nil =>
    intro o ps _ j
    rfl
  | cons w ws ih =>
    intro o ps hp j
    rw [List.map_cons] at hp
    rcases List.pairwise_cons.mp hp with ⟨hd, htl⟩
    have hstep : ((w :: ws).enumFrom o) = (o, w) :: ws.enumFrom (o + 1) := rfl
    rw [hstep, List.foldl_cons]
    rw [ih (o + 1) _ htl j]
    by_cases hj : w.1 = j
    · subst hj
      have hnot : w.1 ∉ ws.map (·.1) := by
        intro hmem
        exact absurd (hd w.1 hmem) (lt_irrefl w.1)
      have h1 : idxOf? w.1 ((w :: ws).map (·.1)) = some 0 := by
        simp [idxOf?]
      rw [idxOf?_eq_none w.1 _ hnot, h1]
      dsimp only
      rw [modifyIdx_get?, if_pos rfl]
      simp
    · have h1 : idxOf? j ((w :: ws).map (·.1)) = (idxOf? j (ws.map (·.1))).map (· + 1) := by
        simp [idxOf?, hj]
      rw [h1]
      cases hidx : idxOf? j (ws.map (·.1)) with
      | none =>
        dsimp only
        rw [modifyIdx_get?, if_neg hj]
        simp
      | some i =>
        dsimp only
        rw [modifyIdx_get?, if_neg hj]
        have he : o + 1 + i = o + (i + 1) := by omega
        rw [he]
        simp

theorem awardsFold_sum (pp rem : Int) :
    ∀ (ws : List (Nat × HandEvaluation)) (o : Nat) (ps : List Player),
      (∀ w ∈ ws, w.1 < ps.length) →
      (((ws.enumFrom o).foldl
          (fun acc iw =>
            modifyIdx iw.2.1
              (fun p =>
                { p with chips := p.chips + pp + (if (iw.1 : Int) < rem then 1 else 0) })
              acc)
          ps).map (·.chips)).sum
        = ((ps.map (·.chips)).sum) + (ws.length : Int) * pp
          + ((List.range' o ws.length).map
              (fun (i : Nat) => if (i : Int) < rem then (1 : Int) else 0)).sum := by
  intro ws
  induction ws with
  | nil =>
    intro o ps _
    simp [List.range']
  | cons w ws ih =>
    intro o ps hlt
    have hstep : ((w :: ws).enumFrom o) = (o, w) :: ws.enumFrom (o + 1) := rfl
    rw [hstep, List.foldl_cons]
    have hlen : ∀ v ∈ ws, v.1 <
        (modifyIdx w.1
          (fun p => { p with chips := p.chips + pp + (if (o : Int) < rem then 1 else 0) })
          ps).length := by
      intro v hv
      rw [modifyIdx_length]
      exact hlt v (List.mem_cons_of_mem _ hv)
    rw [ih (o + 1) _ hlen]
    have hsum := sum_map_modifyIdx
      (fun p => { p with chips := p.chips + pp + (if (o : Int) < rem then 1 else 0) })
      (pp + (if (o : Int) < rem then 1 else 0))
      (fun p => by dsimp; ring)
      ps w.1 (hlt w (List.mem_cons_self _ _))
    rw [hsum]
    rw [show List.range' o (w :: ws).length = o :: List.range' (o + 1) ws.length from
      List.range'_succ o ws.length 1]
    simp only [List.map_cons, List.sum_cons, List.length_cons]
    rw [Nat.cast_add, Nat.cast_one]
    ring

theorem sum_ite_range'_zero (rem : Int) :
    ∀ (n o : Nat), rem ≤ (o : Int) →
      ((List.range' o n).map
        (fun (i : Nat) => if (i : Int) < rem then (1 : Int) else 0)).sum = 0 := by
  intro n
  induction n with
  | zero =>
    intro o _
    simp [List.range']
  | succ m ih =>
    intro o ho
    rw [show List.range' o (m + 1) = o :: List.range' (o + 1) m from List.range'_succ o m 1]
    simp only [List.map_cons, List.sum_cons]
    rw [if_neg (by omega), ih (o + 1) (by push_cast; omega)]
    ring

theorem sum_ite_range' (rem : Int) :
    ∀ (n o : Nat), (o : Int) ≤ rem → rem ≤ ((o + n : Nat) : Int) →
      ((List.range' o n).map
        (fun (i : Nat) => if (i : Int) < rem then (1 : Int) else 0)).sum
        = rem - o := by
  intro n
  induction n with
  | zero =>
    intro o h1 h2
    push_cast at h2
    simp [List.range']
    omega
  | succ m ih =>
    intro o h1 h2
    rw [show List.range' o (m + 1) = o :: List.range' (o + 1) m from List.range'_succ o m 1]
    simp only [List.map_cons, List.sum_cons]
    by_cases hlt : (o : Int) < rem
    · rw [if_pos hlt, ih (o + 1) (by push_cast; omega) (by push_cast at h2 ⊢; omega)]
      push_cast
      ring
    · have ho : rem = (o : Int) := by omega
      rw [if_neg hlt, sum_ite_range'_zero rem m (o + 1) (by push_cast; omega)]
      omega

theorem combinations_ne_nil : ∀ (l : List α) (n : Nat), n ≤ l.length → combinations n l ≠ [] := by
  intro l
  induction l with
  | nil =>
    intro n hn
    have hn0 : n = 0 := by simpa using hn
    subst hn0
    simp [combinations]
  | cons x xs ih =>
    intro n hn
    cases n with
    | zero => simp [combinations]
    | succ m =>
      have hne := ih m (by simpa using hn)
      cases hc : combinations m xs with
      | nil => exact absurd hc hne
      | cons c cs => simp [combinations, hc]

theorem pickFold_isSome (acc : HandEvaluation × Nat) :
    ∀ (l : List (List Card)), (l.foldl pickStep (some acc)).isSome := by
  intro l
  induction l generalizing acc with
  | nil => rfl
  | cons c cs ih =>
    rw [List.foldl_cons]
    unfold pickStep
    dsimp only
    split
    · exact ih _
    · exact ih _

theorem isSome_map_of (f : α → β) (o : Option α) (h : o.isSome) :
    (o.map f).isSome := by
  cases o with
  | none => simp at h
  | some a => rfl

theorem evaluate_6_cards_isSome (hole comm : List Card)
    (hh : hole.length = 2) (hc : comm.length = 4) :
    (evaluate_6_cards hole comm).isSome := by
  unfold evaluate_6_cards
  rw [if_pos ⟨hh, hc⟩]
  have hlen : 5 ≤ (hole ++ comm).length := by
    rw [List.length_append, hh, hc]
    omega
  have hne := combinations_ne_nil (hole ++ comm) 5 hlen
  cases hcom : combinations 5 (hole ++ comm) with
  | nil => exact absurd hcom hne
  | cons c cs =>
    show ((combinations 5 (hole ++ comm)).foldl pickStep none).map (fun x => x.1) |>.isSome
    rw [hcom, List.foldl_cons]
    exact isSome_map_of _ _ (pickFold_isSome _ cs)

/-- C2: pot settlement at showdown. When at least two non-folded players
remain, each holding 2 private cards with 4 shared cards on the table, the
players tied at the maximum evaluated score (`showdownWinners`, in seating
order) receive `pot fdiv winnerCount` chips each plus one extra chip for the
first `pot fmod winnerCount` of them, everyone else is unchanged
(`splitAward` is that rule), the awarded chips sum exactly to the pot, the
pot is zeroed and the phase set to ENDED. -/
theorem C2_showdown_split (g : GameState)
    (hact : 2 ≤ (showdownActive g).length)
    (hcomm : g.community_cards.length = 4)
    (hholes : ∀ ip ∈ showdownActive g, ip.2.hole_cards.length = 2) :
    showdownWinners g ≠ [] ∧
    (showdown g).pot = 0 ∧
    (showdown g).phase = GamePhase.ENDED ∧
    chipSum (showdown g) = chipSum g + g.pot ∧
    ∀ j, (showdown g).players.get? j
      = (g.players.get? j).map (fun p => { p with chips := p.chips + splitAward g j }) := by
  classical
  -- the evaluated-hand list has one entry per active player
  have hsome : ∀ ip ∈ showdownActive g,
      ((fun ip : Nat × Player =>
        if 4 ≤ g.community_cards.length ∧ ip.2.hole_cards.length = 2 then
          (evaluate_6_cards ip.2.hole_cards g.community_cards).map (fun e => (ip.1, e))
        else none) ip).isSome := by
    intro ip hip
    dsimp only
    rw [if_pos ⟨by omega, hholes ip hip⟩]
    exact isSome_map_of _ _
      (evaluate_6_cards_isSome ip.2.hole_cards g.community_cards (hholes ip hip) hcomm)
  have hhlen : (showdownHands g).length = (showdownActive g).length :=
    filterMap_length_of_isSome _ _ hsome
  -- sorted hand list is a nonempty cons
  have hSperm := sortDesc_perm handScore (showdownHands g)
  have hSpair := sortDesc_pairwise handScore (showdownHands g)
  have hSlen : 2 ≤ (sortDesc handScore (showdownHands g)).length := by
    rw [hSperm.length_eq, hhlen]
    exact hact
  cases hS : sortDesc handScore (showdownHands g) with
  | nil =>
    rw [hS] at hSlen
    simp at hSlen
  | cons h restS =>
  rw [hS] at hSperm hSpair
  rcases List.pairwise_cons.mp hSpair with ⟨hhd, _⟩
  have hub : ∀ x ∈ h :: restS, handScore x ≤ handScore h := by
    intro x hx
    rcases List.mem_cons.mp hx with rfl | hx2
    · exact le_refl _
    · exact hhd x hx2
  have hbest : showdownBest g = handScore h := by
    unfold showdownBest
    apply foldl_max_eq_of
    · intro y hy
      obtain ⟨x, hx, rfl⟩ := List.mem_map.mp hy
      exact hub x (hSperm.mem_iff.mpr hx)
    · exact List.mem_map_of_mem handScore (hSperm.mem_iff.mp (List.mem_cons_self _ _))
  -- the leading tied run is the stable filter of the tied class
  have hwin : h :: restS.takeWhile (fun x => handScore x == handScore h)
      = (showdownHands g).filter (fun x => handScore x == showdownBest g) := by
    have h1 : h :: restS.takeWhile (fun x => handScore x == handScore h)
        = (h :: restS).takeWhile (fun x => handScore x == handScore h) := by
      rw [List.takeWhile_cons, if_pos (beq_self_eq_true _)]
    rw [h1, takeWhile_class_eq_filter handScore (handScore h) _ hSpair hub, ← hS,
      sortDesc_filter_class, hbest]
  have hWmem : h ∈ (showdownHands g).filter (fun x => handScore x == showdownBest g) := by
    rw [List.mem_filter]
    exact ⟨hSperm.mem_iff.mp (List.mem_cons_self _ _),
      by rw [hbest]; exact beq_self_eq_true _⟩
  have hW_ne : (showdownHands g).filter (fun x => handScore x == showdownBest g) ≠ [] := by
    intro he
    rw [he] at hWmem
    simp at hWmem
  -- seat indices of winners are strictly increasing and within bounds
  have hsub1 : (((showdownHands g).filter
        (fun x => handScore x == showdownBest g)).map (·.1)).Sublist
      ((showdownHands g).map (·.1)) :=
    (List.filter_sublist _).map _
  have hsub2 : ((showdownHands g).map (·.1)).Sublist ((showdownActive g).map (·.1)) := by
    apply filterMap_fst_sublist
    intro x y hxy
    by_cases hcond : 4 ≤ g.community_cards.length ∧ x.2.hole_cards.length = 2
    · rw [if_pos hcond] at hxy
      cases hev : evaluate_6_cards x.2.hole_cards g.community_cards with
      | none => rw [hev] at hxy; simp at hxy
      | some e =>
        rw [hev] at hxy
        simp only [Option.map_some', Option.some.injEq] at hxy
        rw [← hxy]
    · rw [if_neg hcond] at hxy
      simp at hxy
  have hsub3 : ((showdownActive g).map (·.1)).Sublist (List.range g.players.length) := by
    have := (List.filter_sublist (l := g.players.enum)
      (p := fun ip => decide (ip.2.status ≠ PlayerStatus.FOLDED)
        && decide (ip.2.status ≠ PlayerStatus.OUT))).map (·.1)
    rw [show (g.players.enum.map (·.1)) = List.range g.players.length from
      List.enum_map_fst g.players] at this
    exact this
  have hfst_sub : (((showdownHands g).filter
        (fun x => handScore x == showdownBest g)).map (·.1)).Sublist
      (List.range g.players.length) :=
    (hsub1.trans hsub2).trans hsub3
  have hfst_pair : (((showdownHands g).filter
        (fun x => handScore x == showdownBest g)).map (·.1)).Pairwise (· < ·) :=
    (List.pairwise_lt_range g.players.length).sublist hfst_sub
  have hseat_lt : ∀ w ∈ (showdownHands g).filter (fun x => handScore x == showdownBest g),
      w.1 < g.players.length := by
    intro w hw
    exact List.mem_range.mp (hfst_sub.subset (List.mem_map_of_mem _ hw))
  -- reduce the showdown to the award application
  rcases hsa : showdownActive g with _ | ⟨a, _ | ⟨b, tl⟩⟩
  · rw [hsa] at hact; simp at hact
  · rw [hsa] at hact; simp at hact
  have hshow : showdown g
      = { g with
          players := applyAwards
            (g.pot.fdiv ((((showdownHands g).filter
              (fun x => handScore x == showdownBest g)).length : Nat) : Int))
            (g.pot.fmod ((((showdownHands g).filter
              (fun x => handScore x == showdownBest g)).length : Nat) : Int))
            ((showdownHands g).filter (fun x => handScore x == showdownBest g))
            g.players
          pot := 0
          phase := GamePhase.ENDED } := by
    unfold showdown
    rw [hsa, hS]
    dsimp only
    rw [hwin]
  have hk_pos : 0 < ((showdownHands g).filter
      (fun x => handScore x == showdownBest g)).length :=
    List.length_pos.mpr hW_ne
  refine ⟨?_, ?_, ?_, ?_, ?_⟩
  · unfold showdownWinners
    intro he
    rw [List.map_eq_nil_iff] at he
    exact hW_ne he
  · rw [hshow]
  · rw [hshow]
  · rw [hshow]
    unfold chipSum
    dsimp only
    rw [applyAwards_eq_foldl]
    rw [awardsFold_sum _ _ _ 0 _ hseat_lt]
    rw [sum_ite_range' _ _ 0 (by
        exact_mod_cast Int.fmod_nonneg' g.pot (by exact_mod_cast hk_pos))
      (by
        push_cast
        have := Int.fmod_lt_of_pos g.pot
          (b := ((((showdownHands g).filter
            (fun x => handScore x == showdownBest g)).length : Nat) : Int))
          (by exact_mod_cast hk_pos)
        omega)]
    have hdm := Int.fdiv_add_fmod g.pot
      ((((showdownHands g).filter
        (fun x => handScore x == showdownBest g)).length : Nat) : Int)
    omega
  · intro j
    rw [hshow]
    dsimp only
    rw [applyAwards_eq_foldl]
    rw [awardsFold_get? _ _ _ 0 _ hfst_pair j]
    unfold splitAward showdownWinners
    cases hidx : idxOf? j (((showdownHands g).filter
        (fun x => handScore x == showdownBest g)).map (·.1)) with
    | none =>
      cases hg : g.players.get? j with
      | none => rfl
      | some p => simp
    | some i =>
      cases hg : g.players.get? j with
      | none => rfl
      | some p =>
        simp only [Option.map_some']
        rw [List.length_map]
        have hz : (0 + i : Nat) = i := by omega
        rw [hz, add_assoc]

/-- C2 (witness): the concrete two-way tie (both players make the ace-low
straight) with pot 101: seat 0 receives 51 chips, seat 1 receives 50, the
pot is zeroed, the phase is ENDED and no chip is lost or created. -/
theorem C2_showdown_split_witness :
    (showdown gSplitPot).pot = 0 ∧
    (showdown gSplitPot).phase = GamePhase.ENDED ∧
    chipSum (showdown gSplitPot) = chipSum gSplitPot + gSplitPot.pot ∧
    (showdown gSplitPot).players.map (·.chips) = [1051, 1000] := by
  have h := C2_showdown_split gSplitPot (by decide) (by decide) (by decide)
  exact ⟨h.2.1, h.2.2.1, h.2.2.2.1, by decide⟩

end GameBoymini
